import Mathlib

/-!
Verification of the IncoGuard statistical core against its specification.

The definitions below are a shallow embedding of the Python sources
`src/fluxguard/riftlens/core.py`, `src/fluxguard/voidmark/vault.py` and
`src/fluxguard/nulltrace/soak.py`.  Python floats are modelled as rationals
(`ℚ`) where the code only performs field operations and comparisons, and as
reals (`ℝ`) where the code takes square roots, exponentials or logarithms.
Python dicts with string keys are modelled as association lists together
with `Nodup` hypotheses on the key lists.  File-system reads/writes are
modelled by passing the file contents explicitly.
-/

namespace IncoGuard

/-- Round-half-to-even on a rational, the tie-breaking rule used by Python's
builtin `round`. -/
def roundHalfEven (q : ℚ) : ℤ :=
  let n := ⌊q⌋
  let f := q - (n : ℚ)
  if f < 1/2 then n
  else if 1/2 < f then n + 1
  else if Even n then n else n + 1

/-- Embedding of Python `round(x, 12)` on rationals (the code rounds every
serialized numeric value to 12 decimal digits). -/
def pyRound12 (q : ℚ) : ℚ := (roundHalfEven (q * 10 ^ 12) : ℚ) / 10 ^ 12

/-- Embedding of Python `round(x, 12)` on reals, for the quantities that the
code computes with `math.sqrt` / `math.exp`. -/
noncomputable def pyRound12R (x : ℝ) : ℝ := (round (x * 10 ^ 12) : ℝ) / 10 ^ 12

@[simp] theorem pyRound12_zero : pyRound12 0 = 0 := by
  simp [pyRound12, roundHalfEven]

theorem roundHalfEven_intCast (n : ℤ) : roundHalfEven (n : ℚ) = n := by
  simp [roundHalfEven]

/-- `pyRound12` is the identity on rationals that already are multiples of
`10⁻¹²` (in particular on integers). -/
theorem pyRound12_int_mul (n : ℤ) : pyRound12 ((n : ℚ) / 10 ^ 12) = (n : ℚ) / 10 ^ 12 := by
  unfold pyRound12
  rw [div_mul_cancel₀]
  · rw [roundHalfEven_intCast]
  · norm_num

/-- `pyRound12` fixes every integer. -/
theorem pyRound12_intCast (n : ℤ) : pyRound12 (n : ℚ) = n := by
  unfold pyRound12
  have h : (n : ℚ) * 10 ^ 12 = ((n * 10 ^ 12 : ℤ) : ℚ) := by push_cast; ring
  rw [h, roundHalfEven_intCast]
  push_cast
  field_simp
  norm_num

/-- Python's `range(0, stop, step)` for a positive `step`, as a list. -/
def pyRange (stop step : ℕ) : List ℕ :=
  List.range' 0 ((stop + step - 1) / step) step

theorem mem_pyRange {stop step : ℕ} (hs : 0 < step) {x : ℕ} :
    x ∈ pyRange stop step ↔ ∃ k, x = step * k ∧ x < stop := by
  unfold pyRange
  rw [List.mem_range']
  constructor
  · rintro ⟨i, hi, rfl⟩
    refine ⟨i, by omega, ?_⟩
    have h1 : (i + 1) * step ≤ stop + step - 1 :=
      (Nat.le_div_iff_mul_le hs).mp hi
    have h2 : (i + 1) * step = step * i + step := by ring
    omega
  · rintro ⟨k, rfl, hk⟩
    refine ⟨k, ?_, by omega⟩
    have h2 : (k + 1) * step = step * k + step := by ring
    have h1 : (k + 1) * step ≤ stop + step - 1 := by omega
    exact (Nat.le_div_iff_mul_le hs).mpr h1

theorem pyRange_one_of_stop_one {step : ℕ} (hs : 0 < step) : pyRange 1 step = [0] := by
  unfold pyRange
  have h1 : 1 + step - 1 = step := by omega
  rw [h1, Nat.div_self hs]
  rfl

theorem pairwise_lt_pyRange {stop step : ℕ} (hs : 0 < step) :
    (pyRange stop step).Pairwise (· < ·) := by
  unfold pyRange
  exact List.pairwise_lt_range' 0 _ step hs

/-! ## riftlens/core.py — correlation-coherence graph -/

/-- The ordered-pair enumeration `for i in range(len(keys)): for j in
range(i+1, len(keys))` used by `build_coherence_graph` and
`windowed_corr_edges`. -/
def pyPairs {α : Type} : List α → List (α × α)
  | [] => []
  | x :: xs => xs.map (fun y => (x, y)) ++ pyPairs xs

/-- Python `sorted` on a list of strings (ascending lexicographic order). -/
def sortStrings (l : List String) : List String := l.insertionSort (· ≤ ·)

/-- Column lookup `data[k]` in an association-list model of a Python dict.
The default `[]` is never reached when `k` is one of the dict's keys. -/
def getCol (data : List (String × List ℚ)) (k : String) : List ℚ :=
  (data.lookup k).getD []

/-- Embedding of `pearson_corr` (riftlens/core.py, lines 45-58): Pearson
correlation over the common prefix of the two columns, with the
zero-variance (and `n < 2`) guard returning `0.0`. -/
noncomputable def pearson_corr (x y : List ℚ) : ℝ :=
  let n := min x.length y.length
  if n < 2 then 0
  else
    let x' := x.take n
    let y' := y.take n
    let mx : ℚ := x'.sum / n
    let my : ℚ := y'.sum / n
    let vx : ℚ := (x'.map (fun a => (a - mx) ^ 2)).sum
    let vy : ℚ := (y'.map (fun b => (b - my) ^ 2)).sum
    if vx ≤ 0 ∨ vy ≤ 0 then 0
    else
      let cov : ℚ := ((x'.zip y').map (fun p => (p.1 - mx) * (p.2 - my))).sum
      (cov : ℝ) / Real.sqrt ((vx : ℝ) * (vy : ℝ))

/-- One edge `{"a": .., "b": .., "corr": ..}` of a coherence graph. -/
structure Edge where
  a : String
  b : String
  corr : ℝ

/-- `{nodes, edges, threshold}` as returned by `build_coherence_graph`. -/
structure CoherenceGraph where
  nodes : List String
  edges : List Edge
  threshold : ℝ

open Classical in
/-- Embedding of `build_coherence_graph` (riftlens/core.py, lines 61-70). -/
noncomputable def build_coherence_graph (data : List (String × List ℚ))
    (threshold : ℝ) : CoherenceGraph :=
  let keys := sortStrings (data.map Prod.fst)
  let edges := (pyPairs keys).filterMap (fun ab =>
    let raw := pearson_corr (getCol data ab.1) (getCol data ab.2)
    if threshold ≤ |raw| then some ⟨ab.1, ab.2, pyRound12R raw⟩ else none)
  ⟨keys, edges, threshold⟩

/-- `min(len(v) for v in data.values())`; `0` on the empty table (on which
the Python code would raise instead). -/
def minLen (data : List (String × List ℚ)) : ℕ :=
  match data with
  | [] => 0
  | p :: rest => rest.foldl (fun m q => min m q.2.length) p.2.length

/-- One per-window record of `windowed_corr_edges`. -/
structure WindowSlice where
  start : ℕ
  stop : ℕ
  edges_count : ℕ
  edges : List Edge
  threshold : ℝ

/-- The `window` default of `windowed_corr_edges`:
`if window < 2: window = min(50, length)`. -/
def pyWindowDefault (window : ℤ) (length : ℕ) : ℕ :=
  if window < 2 then min 50 length else window.toNat

/-- The `step` default of `windowed_corr_edges`:
`if step < 1: step = window` (the already-defaulted window). -/
def pyStepDefault (step : ℤ) (W : ℕ) : ℕ :=
  if step < 1 then W else step.toNat

open Classical in
/-- Embedding of `windowed_corr_edges` (riftlens/core.py, lines 73-110):
window/step defaults, start enumeration
`range(0, max(1, length - window + 1), step)` and the per-window graph.
`window` and `step` are `ℤ` because the Python parameters are signed ints;
the slice `data[a][start:end]` is `take window ∘ drop start`. -/
noncomputable def windowed_corr_edges (data : List (String × List ℚ))
    (threshold : ℝ) (window step : ℤ) : List WindowSlice :=
  let keys := sortStrings (data.map Prod.fst)
  let length := minLen data
  if length < 2 then []
  else
    let W : ℕ := pyWindowDefault window length
    let S : ℕ := pyStepDefault step W
    (pyRange (max 1 (length - W + 1)) S).map (fun start =>
      let edges := (pyPairs keys).filterMap (fun ab =>
        let x := (getCol data ab.1).drop start |>.take W
        let y := (getCol data ab.2).drop start |>.take W
        let raw := pearson_corr x y
        if threshold ≤ |raw| then some ⟨ab.1, ab.2, pyRound12R raw⟩ else none)
      ⟨start, min (start + W) length, edges.length, edges, threshold⟩)

/-! ## voidmark/vault.py — KS-lite, stress tester, ledger, fingerprint -/

/-- The merge-walk of `ks_2samp_lite` (vault.py, lines 162-174): the Python
`while i < nx and j < ny` loop with `if x[i] <= y[j]` advancing `i` (ties
included) and otherwise advancing `j`, updating `d` after every step. -/
def ksWalk (nx ny : ℕ) : List ℚ → List ℚ → ℕ → ℕ → ℚ → ℚ → ℚ → ℚ
  | x :: xs, y :: ys, i, j, cdfx, cdfy, d =>
    if x ≤ y then
      let cdfx' : ℚ := ((i + 1 : ℕ) : ℚ) / (nx : ℚ)
      ksWalk nx ny xs (y :: ys) (i + 1) j cdfx' cdfy (max d |cdfx' - cdfy|)
    else
      let cdfy' : ℚ := ((j + 1 : ℕ) : ℚ) / (ny : ℚ)
      ksWalk nx ny (x :: xs) ys i (j + 1) cdfx cdfy' (max d |cdfx - cdfy'|)
  | _, _, _, _, _, _, d => d
termination_by a b _ _ _ _ _ => a.length + b.length

theorem ksWalk_nil_left (nx ny : ℕ) (ys : List ℚ) (i j : ℕ) (cx cy d : ℚ) :
    ksWalk nx ny [] ys i j cx cy d = d := by
  rw [ksWalk.eq_def]

/-- Result record `{"D": .., "p_value": ..}` of `ks_2samp_lite`. -/
structure KSResult where
  D : ℚ
  p_value : ℝ

/-- Embedding of `ks_2samp_lite` (vault.py, lines 155-181).  The statistic
`D` is rational (a max of differences of empirical CDF values); the
asymptotic p-value uses `math.sqrt`/`math.exp` and lives in `ℝ`.
`sorted(x)` is rendered by insertion sort (same result for a total order). -/
noncomputable def ks_2samp_lite (x y : List ℚ) : KSResult :=
  if x = [] ∨ y = [] then ⟨0, 1⟩
  else
    let xs := x.insertionSort (· ≤ ·)
    let ys := y.insertionSort (· ≤ ·)
    let nx := x.length
    let ny := y.length
    let d := ksWalk nx ny xs ys 0 0 0 0 0
    let en : ℝ := Real.sqrt ((nx : ℝ) * (ny : ℝ) / ((nx : ℝ) + (ny : ℝ)))
    let lam : ℝ := (en + 0.12 + 0.11 / en) * (d : ℝ)
    let s : ℝ := ∑ k ∈ Finset.range 100,
      (-1 : ℝ) ^ k * Real.exp (-2 * (((k + 1) ^ 2 : ℕ) : ℝ) * lam ^ 2)
    ⟨pyRound12 d, pyRound12R (max 0 (min 1 (2 * s)))⟩

/-- Interface of the single pseudo-random generator instance
(`random.Random`) threaded through the stress tester.  `random` models
`rng.random()` (a value in `[0,1)`), `randrange8` models
`rng.randrange(0, 8)` (whose result is `< 8` by the library contract,
hence `Fin 8`).  The generator is a value of an explicit state type `σ`;
determinism of the library generator is reflected by these being
functions. -/
structure RNG (σ : Type) where
  random : σ → ℚ × σ
  randrange8 : σ → Fin 8 × σ

/-- The per-byte loop of `flip_bits` (vault.py, lines 32-36): for each byte
draw `rng.random()`; if it is below `prob`, draw a bit index and XOR the
byte with `1 << bit`. -/
def flipGo {σ : Type} (R : RNG σ) (prob : ℚ) : List ℕ → σ → List ℕ × σ
  | [], s => ([], s)
  | b :: bs, s =>
    let rs := R.random s
    if rs.1 < prob then
      let ks := R.randrange8 rs.2
      let rest := flipGo R prob bs ks.2
      ((b ^^^ 2 ^ (ks.1 : ℕ)) :: rest.1, rest.2)
    else
      let rest := flipGo R prob bs rs.2
      (b :: rest.1, rest.2)

/-- Embedding of `flip_bits` (vault.py, lines 29-37), including the
`prob <= 0.0` early return. -/
def flip_bits {σ : Type} (R : RNG σ) (data : List ℕ) (s : σ) (prob : ℚ) :
    List ℕ × σ :=
  if prob ≤ 0 then (data, s) else flipGo R prob data s

/-- Embedding of `shannon_entropy_bits` (vault.py, lines 40-53): Shannon
entropy (base 2) of the 256-bin byte histogram. -/
noncomputable def shannon_entropy_bits (data : List ℕ) : ℝ :=
  if data = [] then 0
  else ∑ b ∈ Finset.range 256,
    (if data.count b = 0 then 0
     else -(((data.count b : ℝ) / (data.length : ℝ)) *
            Real.logb 2 ((data.count b : ℝ) / (data.length : ℝ))))

/-- The population statistics record of `compute_stats` (vault.py, lines
56-69); `none` models the `{"count": 0}` branch for an empty list. -/
structure EntropyStats where
  count : ℕ
  mean : ℝ
  var : ℝ
  vmin : ℝ
  vmax : ℝ

/-- `min(values)` of a nonempty Python list (0 on `[]`, unreachable). -/
noncomputable def listMin : List ℝ → ℝ
  | [] => 0
  | x :: xs => xs.foldl min x

/-- `max(values)` of a nonempty Python list (0 on `[]`, unreachable). -/
noncomputable def listMax : List ℝ → ℝ
  | [] => 0
  | x :: xs => xs.foldl max x

/-- Embedding of `compute_stats` (vault.py, lines 56-69). -/
noncomputable def compute_stats (values : List ℝ) : Option EntropyStats :=
  if values = [] then none
  else
    let m := values.sum / (values.length : ℝ)
    let v := (values.map (fun x => (x - m) ^ 2)).sum / (values.length : ℝ)
    some ⟨values.length, pyRound12R m, pyRound12R v,
          pyRound12R (listMin values), pyRound12R (listMax values)⟩

/-- The trial loop of `voidmark_run_stress_test` (vault.py, lines 287-296):
each trial mutates the base bytes with `flip_bits`, hashes the mutation and
computes the entropy of the digest bytes, threading the single generator
state sequentially.  `hash` stands for the external `hashlib.sha256`
digest (as raw bytes, which is also what `bytes.fromhex(hexdigest)`
yields). -/
noncomputable def stressTrials {σ : Type} (R : RNG σ) (hash : List ℕ → List ℕ)
    (base : List ℕ) (noise : ℚ) : ℕ → σ → List (List ℕ × ℝ) × σ
  | 0, s => ([], s)
  | Nat.succ n, s =>
    let fb := flip_bits R base s noise
    let h := hash fb.1
    let rest := stressTrials R hash base noise n fb.2
    ((h, shannon_entropy_bits h) :: rest.1, rest.2)

/-- The parts of the `mark` object of `voidmark_run_stress_test` that the
stress-test claims are about, plus the per-trial hash/entropy sequences. -/
structure StressMark where
  base_hash : List ℕ
  seed : ℤ
  noise : ℚ
  runs : ℕ
  hashes : List (List ℕ)
  entropies : List ℝ
  summary : Option EntropyStats

/-- Embedding of `voidmark_run_stress_test` (vault.py, lines 260-330),
restricted to the stress-test computation itself (the optional fingerprint
block and the report writing are separate I/O).  `mkRng` models
`random.Random(seed)`; `deriveSeed` models `int(base_hash[:8], 16)`, the
seed derivation from the first 8 hex digits of the base content hash,
applied exactly when the given seed is `0`. -/
noncomputable def voidmark_run_stress_test {σ : Type} (R : RNG σ)
    (mkRng : ℤ → σ) (hash : List ℕ → List ℕ) (deriveSeed : List ℕ → ℤ)
    (target : List ℕ) (runs : ℕ) (noise : ℚ) (seed : ℤ) : StressMark :=
  let baseHash := hash target
  let seed1 := if seed = 0 then deriveSeed baseHash else seed
  let recs := (stressTrials R hash target noise runs (mkRng seed1)).1
  { base_hash := baseHash, seed := seed1, noise := noise, runs := runs,
    hashes := recs.map Prod.fst, entropies := recs.map Prod.snd,
    summary := compute_stats (recs.map Prod.snd) }

/-! ## voidmark/vault.py — versioned fingerprint ledger -/

/-- A JSON value, the content type of the ledger file and of its entries. -/
inductive PyJson where
  | arr (items : List PyJson)
  | obj (fields : List (String × PyJson))
  | num (q : ℚ)
  | str (s : String)
  | bool (b : Bool)
  | null

/-- Whether a JSON value is a list (`isinstance(db, list)`). -/
def PyJson.isArr : PyJson → Bool
  | .arr _ => true
  | _ => false

/-- The state of the ledger file on disk: absent, present but not valid
JSON (`json.loads` raises), or present with a parsed JSON content. -/
inductive LedgerFile where
  | missing
  | corrupt
  | content (j : PyJson)

/-- The read phase of `update_version_history` (vault.py, lines 247-255):
the persisted list if the file exists, parses, and holds a list; the empty
history otherwise. -/
def readDb : LedgerFile → List PyJson
  | .missing => []
  | .corrupt => []
  | .content (.arr items) => items
  | .content _ => []

/-- Embedding of `update_version_history` (vault.py, lines 245-257): read
(with silent recovery), append the entry, write the full list back. -/
def update_version_history (st : LedgerFile) (entry : PyJson) : LedgerFile :=
  .content (.arr (readDb st ++ [entry]))

/-! ## voidmark/vault.py — fingerprint_csv -/

/-- One CSV cell as seen by the `fingerprint_csv` row loop: `missing` for
an absent key or a blank string, `num q` when `float(s)` succeeds, and
`nonNumeric` when it raises (skipped without counting as missing). -/
inductive Cell where
  | missing
  | nonNumeric
  | num (q : ℚ)
deriving DecidableEq

/-- `row.get(k)` for the header column at position `i`: a row shorter than
the header yields `None` (= `missing`, the `csv.DictReader` restval). -/
def getCell (r : List Cell) (i : ℕ) : Cell := (r.get? i).getD .missing

/-- The values parsed into column `i` by the `fingerprint_csv` row loop. -/
def colValues (rows : List (List Cell)) (i : ℕ) : List ℚ :=
  rows.filterMap (fun r =>
    match getCell r i with
    | .num q => some q
    | _ => none)

/-- The missing cells of one row, counted over every header position. -/
def rowMissing (ncols : ℕ) (r : List Cell) : ℕ :=
  ((List.range ncols).filter (fun i => getCell r i = .missing)).length

/-- The fields of the fingerprint record that the claims are about.
`columns` keeps the retained numeric columns with their raw parsed values;
the per-column statistics block is derived from those values and does not
feed back into `missing_rate`. -/
structure Fingerprint where
  rows : ℕ
  missing_cells : ℕ
  missing_rate : ℚ
  columns : List (String × List ℚ)
deriving DecidableEq

/-- Embedding of `fingerprint_csv` (vault.py, lines 95-152) on a parsed
table: `header` is `reader.fieldnames` (assumed without duplicates, as
column access is positional here while the Python code goes through the
row dict) and `rows` the data rows.  Errors model the two `ValueError`
raises.  `missing_rate = round(missing / max(1, total * len(fieldnames)),
12)` with the full header column count in the denominator. -/
def fingerprint_csv (header : List String) (rows : List (List Cell)) :
    Except String Fingerprint :=
  if header = [] then .error ("CSV sans header")
  else
    let total := rows.length
    let missing := (rows.map (rowMissing header.length)).sum
    let cols := header.enum.map (fun p => (p.2, colValues rows p.1))
    let numeric := cols.filter (fun p => 1 < p.2.length)
    if numeric = [] then .error ("Aucune colonne numerique exploitable pour fingerprint")
    else .ok { rows := total, missing_cells := missing,
               missing_rate :=
                 pyRound12 ((missing : ℚ) / ((max 1 (total * header.length) : ℕ) : ℚ)),
               columns := numeric }

/-! ## voidmark/vault.py — compare_fingerprints (drift signal composer) -/

/-- The per-column statistics of a fingerprint that `compare_fingerprints`
reads (each through `float(stats.get(key, 0.0))`, so every field is a
plain number once the column's stats block exists). -/
structure FpCol where
  mean : ℚ
  median : ℚ
  mad : ℚ
deriving DecidableEq

/-- Check-dict keys are modelled as character lists (Python strings), so
that the final `k.startswith("delta_mean_")` scan is `List.isPrefixOf`. -/
def kDeltaMean (col : String) : List Char := "delta_mean_".data ++ col.data

/-- Key `f"delta_median_{col}"`. -/
def kDeltaMedian (col : String) : List Char := "delta_median_".data ++ col.data

/-- Key `f"delta_mad_{col}"`. -/
def kDeltaMad (col : String) : List Char := "delta_mad_".data ++ col.data

/-- Key `f"ks_pvalue_{col}"`. -/
def kKsP (col : String) : List Char := "ks_pvalue_".data ++ col.data

/-- Key `f"ks_D_{col}"`. -/
def kKsD (col : String) : List Char := "ks_D_".data ++ col.data

/-- The `read_cols` filter (vault.py line 224): keep columns with more
than one parsed value. -/
def keepCols (raw : List (String × List ℚ)) : List (String × List ℚ) :=
  raw.filter (fun p => 1 < p.2.length)

/-- `sorted(set(cols_base) & set(cols_cur))` (vault.py line 231). -/
def sharedCols (colsBase colsCur : List (String × List ℚ)) : List String :=
  sortStrings ((colsBase.map Prod.fst).filter
    (fun k => (colsCur.map Prod.fst).contains k))

/-- The drift-signal record `{"flag_drift": .., "checks": ..}`. -/
structure DriftSignals where
  flag_drift : Bool
  checks : List (List Char × ℝ)

/-- The check entries one current column contributes in the delta loop of
`compare_fingerprints` (vault.py, lines 199-208): nothing when the
baseline fingerprint lacks the column, else the rounded
`delta_mean`/`delta_median`/`delta_mad` values (current minus baseline). -/
def deltaEntries (baseCols : List (String × FpCol)) (q : String × FpCol) :
    List (List Char × ℝ) :=
  match baseCols.lookup q.1 with
  | Option.none => []
  | some sb =>
    [(kDeltaMean q.1, ((pyRound12 (q.2.mean - sb.mean) : ℚ) : ℝ)),
     (kDeltaMedian q.1, ((pyRound12 (q.2.median - sb.median) : ℚ) : ℝ)),
     (kDeltaMad q.1, ((pyRound12 (q.2.mad - sb.mad) : ℚ) : ℝ))]

/-- The two check entries the KS loop records for one shared column
(vault.py, lines 232-234). -/
noncomputable def ksEntries (colsBase colsCur : List (String × List ℚ))
    (col : String) : List (List Char × ℝ) :=
  [(kKsP col, (ks_2samp_lite (getCol colsBase col) (getCol colsCur col)).p_value),
   (kKsD col, ((ks_2samp_lite (getCol colsBase col) (getCol colsCur col)).D : ℝ))]

open Classical in
/-- The KS drift test for one shared column: `res["p_value"] < alpha`
(vault.py, line 235). -/
noncomputable def ksBelowAlpha (colsBase colsCur : List (String × List ℚ))
    (alpha : ℝ) (col : String) : Bool :=
  decide ((ks_2samp_lite (getCol colsBase col) (getCol colsCur col)).p_value < alpha)

open Classical in
/-- The final scan predicate of `compare_fingerprints` (vault.py, lines
238-240): `k.startswith("delta_mean_") and abs(float(v)) > 0.05`. -/
noncomputable def dmScan (kv : List Char × ℝ) : Bool :=
  "delta_mean_".data.isPrefixOf kv.1 && decide ((0.05 : ℝ) < |kv.2|)

open Classical in
/-- Embedding of the drift-composition part of `compare_fingerprints`
(vault.py, lines 184-242).  `curCols`/`baseCols` are the `columns` maps of
the current and baseline fingerprints; `rawPair = some (rb, rc)` models
the branch where the baseline source CSV is resolvable, with `rb`/`rc`
the columns parsed from the baseline and current CSVs (before the
`len > 1` filter of `read_cols`).  The three loops appear in source
order: per-column deltas, the KS loop (setting the flag on
`p_value < alpha`), then the `delta_mean_` threshold scan. -/
noncomputable def compare_fingerprints_core (curCols baseCols : List (String × FpCol))
    (rawPair : Option (List (String × List ℚ) × List (String × List ℚ)))
    (alpha : ℝ) : DriftSignals :=
  let checks1 : List (List Char × ℝ) :=
    curCols.foldl (fun acc q => acc ++ deltaEntries baseCols q) []
  let step2 : List (List Char × ℝ) × Bool :=
    match rawPair with
    | Option.none => (checks1, false)
    | some (rb, rc) =>
      (sharedCols (keepCols rb) (keepCols rc)).foldl (fun acc col =>
        (acc.1 ++ ksEntries (keepCols rb) (keepCols rc) col,
         acc.2 || ksBelowAlpha (keepCols rb) (keepCols rc) alpha col))
        (checks1, false)
  let flag := step2.1.foldl (fun fl kv => fl || dmScan kv) step2.2
  ⟨flag, step2.1⟩

/-! ## nulltrace/soak.py — sandboxed rule evaluator

The expression grammar of Python's `ast` module (mode `eval`), restricted
to the node kinds a rule expression can surface.  Operator kinds outside
the `_ALLOWED_NODES` whitelist (`Pow`, `FloorDiv`, bit operators, `UAdd`,
`Invert`, `Is`, `In`, ...) are present so the rejection path can be
exercised; `ast.walk` visits operator objects as nodes of their own, which
the `PyNode.op` constructor mirrors. -/

/-- `ast.And` / `ast.Or`. -/
inductive PyBoolOp where
  | and
  | or
deriving DecidableEq

/-- Tag (`type(node).__name__`) of a boolean operator node. -/
def PyBoolOp.tag : PyBoolOp → String
  | .and => "And"
  | .or => "Or"

/-- Binary operator nodes of `ast.BinOp`. -/
inductive PyBinOp where
  | add
  | sub
  | mult
  | div
  | mod
  | pow
  | floordiv
  | bitor
  | bitxor
  | bitand
  | lshift
  | rshift
deriving DecidableEq

/-- Tag of a binary operator node. -/
def PyBinOp.tag : PyBinOp → String
  | .add => "Add"
  | .sub => "Sub"
  | .mult => "Mult"
  | .div => "Div"
  | .mod => "Mod"
  | .pow => "Pow"
  | .floordiv => "FloorDiv"
  | .bitor => "BitOr"
  | .bitxor => "BitXor"
  | .bitand => "BitAnd"
  | .lshift => "LShift"
  | .rshift => "RShift"

/-- Unary operator nodes of `ast.UnaryOp`. -/
inductive PyUnaryOp where
  | usub
  | uadd
  | not
  | invert
deriving DecidableEq

/-- Tag of a unary operator node. -/
def PyUnaryOp.tag : PyUnaryOp → String
  | .usub => "USub"
  | .uadd => "UAdd"
  | .not => "Not"
  | .invert => "Invert"

/-- Comparison operator nodes of `ast.Compare`. -/
inductive PyCmpOp where
  | eq
  | ne
  | lt
  | le
  | gt
  | ge
  | isOp
  | isNotOp
  | inOp
  | notInOp
deriving DecidableEq

/-- Tag of a comparison operator node. -/
def PyCmpOp.tag : PyCmpOp → String
  | .eq => "Eq"
  | .ne => "NotEq"
  | .lt => "Lt"
  | .le => "LtE"
  | .gt => "Gt"
  | .ge => "GtE"
  | .isOp => "Is"
  | .isNotOp => "IsNot"
  | .inOp => "In"
  | .notInOp => "NotIn"

/-- `ast.Constant` payloads (numeric, string, boolean, `None`). -/
inductive PyConst where
  | num (q : ℚ)
  | str (s : String)
  | bool (b : Bool)
  | none
deriving DecidableEq

/-- Python expression trees (`ast.parse(expr, mode="eval").body`). -/
inductive PyExpr where
  | boolop (op : PyBoolOp) (values : List PyExpr)
  | binop (left : PyExpr) (op : PyBinOp) (right : PyExpr)
  | unaryop (op : PyUnaryOp) (operand : PyExpr)
  | compare (left : PyExpr) (ops : List PyCmpOp) (comparators : List PyExpr)
  | name (id : String)
  | const (c : PyConst)
  | call (func : PyExpr) (args : List PyExpr)
  | attribute (value : PyExpr) (attr : String)
  | subscript (value : PyExpr) (index : PyExpr)
  | ifExp (test : PyExpr) (body : PyExpr) (orelse : PyExpr)
  | listDisplay (elts : List PyExpr)

/-- Tag (`type(node).__name__`) of an expression node. -/
def PyExpr.tag : PyExpr → String
  | .boolop .. => "BoolOp"
  | .binop .. => "BinOp"
  | .unaryop .. => "UnaryOp"
  | .compare .. => "Compare"
  | .name .. => "Name"
  | .const .. => "Constant"
  | .call .. => "Call"
  | .attribute .. => "Attribute"
  | .subscript .. => "Subscript"
  | .ifExp .. => "IfExp"
  | .listDisplay .. => "List"

/-- A node yielded by `ast.walk`: either an expression node or a
leaf helper node (operator object or `Load` context) carrying only its
class name. -/
inductive PyNode where
  | expr (e : PyExpr)
  | op (tag : String)

/-- `ast.iter_child_nodes` of an expression node, in field order, with
operator objects and `Load` contexts included as nodes. -/
def childrenE : PyExpr → List PyNode
  | .boolop op vals => .op op.tag :: vals.map .expr
  | .binop l op r => [.expr l, .op op.tag, .expr r]
  | .unaryop op e => [.op op.tag, .expr e]
  | .compare l ops comps =>
      .expr l :: (ops.map (fun o => .op o.tag) ++ comps.map .expr)
  | .name _ => [.op ("Load")]
  | .const _ => []
  | .call f args => .expr f :: args.map .expr
  | .attribute v _ => [.expr v, .op ("Load")]
  | .subscript v i => [.expr v, .expr i, .op ("Load")]
  | .ifExp c t e => [.expr c, .expr t, .expr e]
  | .listDisplay elts => elts.map .expr ++ [.op ("Load")]

/-- Children of a walk node (leaf helper nodes have none). -/
def PyNode.children : PyNode → List PyNode
  | .expr e => childrenE e
  | .op _ => []

/-- Weight of an expression for the BFS termination measure: one per node
the walk will visit in its subtree. -/
def wexpr : PyExpr → ℕ
  | .boolop _ vals => 2 + wlist vals
  | .binop l _ r => 2 + wexpr l + wexpr r
  | .unaryop _ e => 2 + wexpr e
  | .compare l ops comps => 1 + ops.length + wexpr l + wlist comps
  | .name _ => 2
  | .const _ => 1
  | .call f args => 1 + wexpr f + wlist args
  | .attribute v _ => 2 + wexpr v
  | .subscript v i => 2 + wexpr v + wexpr i
  | .ifExp c t e => 1 + wexpr c + wexpr t + wexpr e
  | .listDisplay elts => 2 + wlist elts
where
  /-- Total weight of a list of sub-expressions. -/
  wlist : List PyExpr → ℕ
  | [] => 0
  | e :: es => wexpr e + wlist es

/-- Weight of a walk node. -/
def wnode : PyNode → ℕ
  | .expr e => wexpr e
  | .op _ => 1

/-- Total weight of a BFS queue. -/
def wsum (l : List PyNode) : ℕ := (l.map wnode).sum

theorem wsum_append (l₁ l₂ : List PyNode) : wsum (l₁ ++ l₂) = wsum l₁ + wsum l₂ := by
  simp [wsum]

theorem sum_wnode_expr (es : List PyExpr) :
    (es.map (wnode ∘ PyNode.expr)).sum = wexpr.wlist es := by
  induction es with
  | nil => rfl
  | cons e es ih =>
    simp only [List.map_cons, List.sum_cons, Function.comp_apply, wexpr.wlist, wnode]
    omega

theorem sum_wnode_op {α : Type} (f : α → String) (l : List α) :
    (l.map (wnode ∘ fun o => PyNode.op (f o))).sum = l.length := by
  induction l with
  | nil => rfl
  | cons x l ih =>
    simp only [List.map_cons, List.sum_cons, Function.comp_apply, List.length_cons, wnode]
    omega

theorem wexpr_pos (e : PyExpr) : 1 ≤ wexpr e := by
  cases e <;> simp [wexpr] <;> omega

theorem wsum_children (n : PyNode) : wsum n.children < wnode n := by
  cases n with
  | op t => simp [PyNode.children, wsum, wnode]
  | expr e =>
    cases e <;>
      simp [PyNode.children, childrenE, wnode, wexpr, wsum, sum_wnode_expr,
            sum_wnode_op] <;>
      omega

/-- `ast.walk`: breadth-first traversal with a FIFO queue, yielding each
popped node and enqueuing its children. -/
def walkAux : List PyNode → List PyNode
  | [] => []
  | n :: queue => n :: walkAux (queue ++ n.children)
termination_by l => wsum l
decreasing_by
  simp only [wsum, List.map_cons, List.sum_cons, List.map_append, List.sum_append]
  have := wsum_children n
  simp only [wsum] at this
  omega

/-- `ast.walk(ast.parse(expr, mode="eval"))`: the `Expression` wrapper node
first, then the breadth-first traversal of the expression tree. -/
def walkFull (e : PyExpr) : List PyNode := .op ("Expression") :: walkAux [.expr e]

/-- `_ALLOWED_NODES` (soak.py, lines 101-125). -/
def allowedTags : List String :=
  ["Expression", "BoolOp", "BinOp", "UnaryOp", "Compare", "Name", "Load",
   "Constant", "And", "Or", "Not", "Eq", "NotEq", "Lt", "LtE", "Gt", "GtE",
   "Add", "Sub", "Mult", "Div", "Mod", "USub"]

/-- The class name a walk node reports. -/
def PyNode.tagOf : PyNode → String
  | .expr e => e.tag
  | .op t => t

/-- Run-time values of the restricted evaluator (Python numbers are merged
into one numeric kind, booleans kept separate for `bool()` semantics). -/
inductive PyVal where
  | num (q : ℚ)
  | str (s : String)
  | bool (b : Bool)
  | pynone
deriving DecidableEq

/-- Python truthiness (`bool(v)`). -/
def truthy : PyVal → Bool
  | .num q => decide (q ≠ 0)
  | .str s => decide (s ≠ "")
  | .bool b => b
  | .pynone => false

/-- Value of an `ast.Constant`. -/
def constVal : PyConst → PyVal
  | .num q => .num q
  | .str s => .str s
  | .bool b => .bool b
  | .none => .pynone

/-- Numeric view of a value (`bool` is an `int` subtype in Python). -/
def toNum : PyVal → Option ℚ
  | .num q => some q
  | .bool b => some (if b then 1 else 0)
  | _ => Option.none

/-- Python `%` on numbers (sign follows the divisor). -/
def pyMod (a b : ℚ) : ℚ := a - b * ⌊a / b⌋

/-- CPython evaluation of a whitelisted binary operator (the operators
outside the whitelist are never evaluated, `_safe_eval` rejects them
during the walk). -/
def applyBin (op : PyBinOp) (a b : PyVal) : Except String PyVal :=
  match op with
  | .add =>
    match a, b with
    | .str s, .str t => .ok (.str (s ++ t))
    | _, _ =>
      match toNum a, toNum b with
      | some x, some y => .ok (.num (x + y))
      | _, _ => .error ("TypeError: +")
  | .sub =>
    match toNum a, toNum b with
    | some x, some y => .ok (.num (x - y))
    | _, _ => .error ("TypeError: -")
  | .mult =>
    match toNum a, toNum b with
    | some x, some y => .ok (.num (x * y))
    | _, _ => .error ("TypeError: *")
  | .div =>
    match toNum a, toNum b with
    | some x, some y =>
      if y = 0 then .error ("ZeroDivisionError") else .ok (.num (x / y))
    | _, _ => .error ("TypeError: /")
  | .mod =>
    match toNum a, toNum b with
    | some x, some y =>
      if y = 0 then .error ("ZeroDivisionError") else .ok (.num (pyMod x y))
    | _, _ => .error ("TypeError: %")
  | _ => .error ("unsupported operator: " ++ op.tag)

/-- CPython evaluation of a whitelisted unary operator. -/
def applyUnary (op : PyUnaryOp) (v : PyVal) : Except String PyVal :=
  match op with
  | .usub =>
    match toNum v with
    | some x => .ok (.num (-x))
    | _ => .error ("TypeError: unary -")
  | .not => .ok (.bool (!truthy v))
  | _ => .error ("unsupported operator: " ++ op.tag)

/-- Python `==` on values (`False` across incomparable kinds). -/
def pyValEq (a b : PyVal) : Bool :=
  match a, b with
  | .str s, .str t => s = t
  | .pynone, .pynone => true
  | _, _ =>
    match toNum a, toNum b with
    | some x, some y => x = y
    | _, _ => false

/-- Python `<` on values (`TypeError` across incomparable kinds). -/
def pyValLt (a b : PyVal) : Except String Bool :=
  match a, b with
  | .str s, .str t => .ok (s < t)
  | _, _ =>
    match toNum a, toNum b with
    | some x, some y => .ok (x < y)
    | _, _ => .error ("TypeError: order comparison")

/-- Python `<=` on values. -/
def pyValLe (a b : PyVal) : Except String Bool :=
  match a, b with
  | .str s, .str t => .ok (s ≤ t)
  | _, _ =>
    match toNum a, toNum b with
    | some x, some y => .ok (x ≤ y)
    | _, _ => .error ("TypeError: order comparison")

/-- CPython evaluation of one whitelisted comparison. -/
def applyCmp (op : PyCmpOp) (a b : PyVal) : Except String Bool :=
  match op with
  | .eq => .ok (pyValEq a b)
  | .ne => .ok (!pyValEq a b)
  | .lt => pyValLt a b
  | .le => pyValLe a b
  | .gt => pyValLt b a
  | .ge => pyValLe b a
  | _ => .error ("unsupported operator: " ++ op.tag)

mutual

/-- Evaluation of a whitelisted expression, as CPython's `eval` of the
compiled tree would perform it over an environment whose only names are
the statistics variables (`{"__builtins__": {}}` as globals).  Constructs
outside the whitelist report an error; `_safe_eval` rejects them before
evaluation, so those branches are unreachable from `safe_eval`. -/
def evalExpr (env : List (String × PyVal)) : PyExpr → Except String PyVal
  | .boolop op vals => evalBoolList env op vals
  | .binop l op r =>
    match evalExpr env l with
    | .error m => .error m
    | .ok a =>
      match evalExpr env r with
      | .error m => .error m
      | .ok b => applyBin op a b
  | .unaryop op e =>
    match evalExpr env e with
    | .error m => .error m
    | .ok v => applyUnary op v
  | .compare l ops comps =>
    match evalExpr env l with
    | .error m => .error m
    | .ok a => evalCmpChain env a ops comps
  | .name id =>
    match env.lookup id with
    | some v => .ok v
    | Option.none => .error ("NameError: " ++ id)
  | .const c => .ok (constVal c)
  | e => .error ("unsupported construct: " ++ e.tag)

/-- Left-to-right short-circuit evaluation of `and` / `or` operand lists
(the result is the deciding operand's value, as in Python). -/
def evalBoolList (env : List (String × PyVal)) (op : PyBoolOp) :
    List PyExpr → Except String PyVal
  | [] => .error ("empty BoolOp")
  | [e] => evalExpr env e
  | e :: rest =>
    match evalExpr env e with
    | .error m => .error m
    | .ok v =>
      match op with
      | .and => if truthy v then evalBoolList env op rest else .ok v
      | .or => if truthy v then .ok v else evalBoolList env op rest

/-- Chained comparison `a op₁ b op₂ c ...` with short-circuiting. -/
def evalCmpChain (env : List (String × PyVal)) (a : PyVal) :
    List PyCmpOp → List PyExpr → Except String PyVal
  | [], _ => .ok (.bool true)
  | _, [] => .ok (.bool true)
  | op :: ops, c :: comps =>
    match evalExpr env c with
    | .error m => .error m
    | .ok b =>
      match applyCmp op a b with
      | .error m => .error m
      | .ok r =>
        if r then evalCmpChain env b ops comps else .ok (.bool false)

end

/-- The name carried by a walk node when it is an `ast.Name`
(`isinstance(node, ast.Name)` together with `node.id`). -/
def nameOf : PyNode → Option String
  | .expr (.name id) => some id
  | _ => Option.none

/-- One iteration of the `_safe_eval` walk loop (soak.py, lines 130-134):
the `isinstance(node, _ALLOWED_NODES)` whitelist test, then for `Name`
nodes the `node.id not in env` test. -/
def checkNode (env : List (String × PyVal)) (n : PyNode) : Except String Unit :=
  if allowedTags.contains n.tagOf then
    match nameOf n with
    | some id =>
      if (env.lookup id).isSome then .ok ()
      else .error ("Variable inconnue: " ++ id)
    | Option.none => .ok ()
  else .error ("Expression interdite: " ++ n.tagOf)

/-- The whole walk loop: first failing node wins, in `ast.walk` order. -/
def checkList (env : List (String × PyVal)) : List PyNode → Except String Unit
  | [] => .ok ()
  | n :: ns =>
    match checkNode env n with
    | .ok _ => checkList env ns
    | .error m => .error m

/-- Embedding of `_safe_eval` (soak.py, lines 128-136): parse (the input is
already a tree here), walk-check every node, and only then compile and
evaluate, coercing the result with `bool()`. -/
def safe_eval (e : PyExpr) (env : List (String × PyVal)) : Except String Bool :=
  match checkList env (walkFull e) with
  | .error m => .error m
  | .ok _ =>
    match evalExpr env e with
    | .error m => .error m
    | .ok v => .ok (truthy v)

/-- A walk node that the `_safe_eval` check loop rejects: its class is not
whitelisted, or it is a `Name` not bound in the environment. -/
def nodeBad (env : List (String × PyVal)) (n : PyNode) : Bool :=
  if allowedTags.contains n.tagOf then
    match nameOf n with
    | some id => !(env.lookup id).isSome
    | Option.none => false
  else true

/-- The error message `_safe_eval` raises at a rejected node. -/
def nodeErrMsg (env : List (String × PyVal)) (n : PyNode) : String :=
  if allowedTags.contains n.tagOf then
    match nameOf n with
    | some id =>
      if (env.lookup id).isSome then "" else "Variable inconnue: " ++ id
    | Option.none => ""
  else "Expression interdite: " ++ n.tagOf

/-! ## Theorems -/

theorem readDb_update (st : LedgerFile) (e : PyJson) :
    readDb (update_version_history st e) = readDb st ++ [e] := rfl

theorem readDb_foldl (es : List PyJson) (st : LedgerFile) :
    readDb (es.foldl update_version_history st) = readDb st ++ es := by
  induction es generalizing st with
  | nil => simp
  | cons e es ih =>
    rw [List.foldl_cons, ih, readDb_update]
    simp

theorem readDb_content_of_not_arr {j : PyJson} (hj : j.isArr = false) :
    readDb (.content j) = [] := by
  cases j <;> simp_all [readDb, PyJson.isArr]

/-- C5: starting from a missing ledger file, appending `N` entries
sequentially persists exactly those entries in append order; and from an
unreadable (`corrupt`) file or one whose JSON is not a list, one append
succeeds and persists exactly the one new entry. -/
theorem ledger_append_order_and_recovery (es : List PyJson) (entry junk : PyJson)
    (hj : junk.isArr = false) :
    readDb (es.foldl update_version_history .missing) = es ∧
    readDb (update_version_history .corrupt entry) = [entry] ∧
    readDb (update_version_history (.content junk) entry) = [entry] := by
  refine ⟨?_, rfl, ?_⟩
  · rw [readDb_foldl]; rfl
  · rw [readDb_update, readDb_content_of_not_arr hj]; rfl

/-- Witness for C5 at a concrete history and a concrete non-list file. -/
theorem ledger_append_order_and_recovery_witness :
    readDb ([PyJson.null, PyJson.bool true].foldl update_version_history .missing) =
      [PyJson.null, PyJson.bool true] ∧
    readDb (update_version_history .corrupt (.num 1)) = [.num 1] ∧
    readDb (update_version_history (.content (.num 2)) (.num 1)) = [.num 1] :=
  ledger_append_order_and_recovery [PyJson.null, PyJson.bool true] (.num 1) (.num 2) rfl

/-- C2: the stress tester is deterministic — with the same target bytes,
the same explicit non-zero seed, the same noise probability and trial
count, two independent runs produce identical per-trial hash sequences,
identical per-trial entropy values, and an identical entropy summary; the
seed actually used is the explicit seed.  The single generator is seeded
once (`mkRng`) and threaded sequentially through all trials by
`stressTrials`. -/
theorem voidmark_stress_test_deterministic {σ : Type} (R : RNG σ)
    (mkRng : ℤ → σ) (hash : List ℕ → List ℕ) (deriveSeed : List ℕ → ℤ)
    (t₁ t₂ : List ℕ) (runs₁ runs₂ : ℕ) (noise₁ noise₂ : ℚ) (seed₁ seed₂ : ℤ)
    (ht : t₁ = t₂) (hr : runs₁ = runs₂) (hn : noise₁ = noise₂)
    (hs : seed₁ = seed₂) (hnz : seed₁ ≠ 0) :
    (voidmark_run_stress_test R mkRng hash deriveSeed t₁ runs₁ noise₁ seed₁).hashes =
      (voidmark_run_stress_test R mkRng hash deriveSeed t₂ runs₂ noise₂ seed₂).hashes ∧
    (voidmark_run_stress_test R mkRng hash deriveSeed t₁ runs₁ noise₁ seed₁).entropies =
      (voidmark_run_stress_test R mkRng hash deriveSeed t₂ runs₂ noise₂ seed₂).entropies ∧
    (voidmark_run_stress_test R mkRng hash deriveSeed t₁ runs₁ noise₁ seed₁).summary =
      (voidmark_run_stress_test R mkRng hash deriveSeed t₂ runs₂ noise₂ seed₂).summary ∧
    (voidmark_run_stress_test R mkRng hash deriveSeed t₁ runs₁ noise₁ seed₁).seed = seed₁ := by
  subst ht hr hn hs
  refine ⟨rfl, rfl, rfl, ?_⟩
  simp [voidmark_run_stress_test, hnz]

/-- Witness for C2 with a concrete generator, hash, target and seed. -/
theorem voidmark_stress_test_deterministic_witness :
    (voidmark_run_stress_test (σ := Unit) ⟨fun s => (0, s), fun s => (0, s)⟩
        (fun _ => ()) id (fun _ => 0) [0, 255] 3 (1/2) 7).hashes =
      (voidmark_run_stress_test (σ := Unit) ⟨fun s => (0, s), fun s => (0, s)⟩
        (fun _ => ()) id (fun _ => 0) [0, 255] 3 (1/2) 7).hashes ∧
    (voidmark_run_stress_test (σ := Unit) ⟨fun s => (0, s), fun s => (0, s)⟩
        (fun _ => ()) id (fun _ => 0) [0, 255] 3 (1/2) 7).seed = 7 := by
  have h := voidmark_stress_test_deterministic (σ := Unit)
    ⟨fun s => (0, s), fun s => (0, s)⟩ (fun _ => ()) id (fun _ => 0)
    [0, 255] [0, 255] 3 3 (1/2) (1/2) 7 7 rfl rfl rfl rfl (by decide)
  exact ⟨h.1, h.2.2.2⟩

/-- C1 (code bug): on the identical one-element samples `x = y = [1.0]`
the KS-lite statistic of the code is `D = 1`, not the `D = 0` the
specification requires for two identical samples (the tie `x[i] <= y[j]`
advances only the `x` pointer, so the walk sees a spurious CDF gap). -/
theorem ks_2samp_lite_identical_sample_D_one :
    (ks_2samp_lite [(1 : ℚ)] [(1 : ℚ)]).D = 1 ∧ (1 : ℚ) ≠ 0 := by
  constructor
  · show pyRound12 (ksWalk 1 1 [1] [1] 0 0 0 0 0) = 1
    have hw : ksWalk 1 1 [1] [1] 0 0 0 0 0 = 1 := by
      norm_num [ksWalk, ksWalk_nil_left]
    rw [hw]
    have h1 := pyRound12_intCast 1
    norm_num at h1
    exact h1
  · norm_num

/-- Bitwise operations preserve the one-byte bound. -/
theorem xor_two_pow_lt_256 {a k : ℕ} (ha : a < 256) (hk : k < 8) :
    a ^^^ 2 ^ k < 256 := by
  have h2 : (2 : ℕ) ^ k < 256 := by
    calc (2 : ℕ) ^ k ≤ 2 ^ 7 := Nat.pow_le_pow_right (by norm_num) (by omega)
    _ < 256 := by norm_num
  have hb : a ^^^ 2 ^ k = Nat.bitwise bne a (2 ^ k) := rfl
  have h256 : (256 : ℕ) = 2 ^ 8 := by norm_num
  rw [hb, h256]
  exact Nat.bitwise_lt (h256 ▸ ha) (h256 ▸ h2)

/-- The relation between an input byte and the corresponding output byte of
`flip_bits`: unchanged, or XOR-ed with a single power of two below `2⁸`. -/
def flipRel (a b : ℕ) : Prop := b = a ∨ ∃ k, k < 8 ∧ b = a ^^^ 2 ^ k

theorem flipGo_forall₂ {σ : Type} (R : RNG σ) (prob : ℚ) :
    ∀ (data : List ℕ) (s : σ),
      List.Forall₂ flipRel data (flipGo R prob data s).1 := by
  intro data
  induction data with
  | nil => intro s; simp [flipGo]
  | cons b bs ih =>
    intro s
    by_cases h : (R.random s).1 < prob
    · simp only [flipGo, h, if_true, if_pos]
      exact List.Forall₂.cons
        (Or.inr ⟨((R.randrange8 (R.random s).2).1 : ℕ),
          (R.randrange8 (R.random s).2).1.isLt, rfl⟩) (ih _)
    · simp only [flipGo, h, if_false, if_neg, not_false_iff]
      exact List.Forall₂.cons (Or.inl rfl) (ih _)

theorem flip_bits_forall₂ {σ : Type} (R : RNG σ) (data : List ℕ) (s : σ)
    (prob : ℚ) : List.Forall₂ flipRel data (flip_bits R data s prob).1 := by
  unfold flip_bits
  by_cases h : prob ≤ 0
  · simp only [h, if_pos]
    exact List.forall₂_same.mpr (fun x _ => Or.inl rfl)
  · simp only [h, if_neg, not_false_iff]
    exact flipGo_forall₂ R prob data s

/-- C10: `flip_bits` preserves the byte-string length, every output byte
differs from the corresponding input byte in at most one bit position
(it is the input byte XOR a single power of two, all other bits agree),
output bytes stay bytes, and a noise probability `≤ 0` returns the input
unchanged. -/
theorem flip_bits_byte_shape {σ : Type} (R : RNG σ) (data : List ℕ) (s : σ)
    (prob : ℚ) :
    (flip_bits R data s prob).1.length = data.length ∧
    (∀ (i : ℕ) (h1 : i < data.length) (h2 : i < (flip_bits R data s prob).1.length),
      (flip_bits R data s prob).1.get ⟨i, h2⟩ = data.get ⟨i, h1⟩ ∨
        ∃ k, k < 8 ∧
          (flip_bits R data s prob).1.get ⟨i, h2⟩ = data.get ⟨i, h1⟩ ^^^ 2 ^ k ∧
          ∀ j, j ≠ k →
            ((flip_bits R data s prob).1.get ⟨i, h2⟩).testBit j =
              (data.get ⟨i, h1⟩).testBit j) ∧
    ((∀ x ∈ data, x < 256) → ∀ y ∈ (flip_bits R data s prob).1, y < 256) ∧
    (prob ≤ 0 → (flip_bits R data s prob).1 = data) := by
  have hF := flip_bits_forall₂ R data s prob
  have hlen := hF.length_eq
  refine ⟨hlen.symm, ?_, ?_, ?_⟩
  · intro i h1 h2
    have hrel := (List.forall₂_iff_get.mp hF).2 i h1 h2
    rcases hrel with heq | ⟨k, hk, heq⟩
    · exact Or.inl heq
    · refine Or.inr ⟨k, hk, heq, ?_⟩
      intro j hj
      rw [heq, Nat.testBit_xor, Nat.testBit_two_pow_of_ne (Ne.symm hj)]
      simp
  · intro hdata y hy
    obtain ⟨⟨i, hi⟩, rfl⟩ := List.mem_iff_get.mp hy
    have h1 : i < data.length := by omega
    have hrel := (List.forall₂_iff_get.mp hF).2 i h1 hi
    have hmem : data.get ⟨i, h1⟩ ∈ data := data.get_mem _ _
    rcases hrel with heq | ⟨k, hk, heq⟩
    · rw [heq]; exact hdata _ hmem
    · rw [heq]; exact xor_two_pow_lt_256 (hdata _ hmem) hk
  · intro h
    simp [flip_bits, h]

/-- Witness for C10: with a trivial generator and `prob = 0` the input
byte string is returned unchanged, with its length preserved. -/
theorem flip_bits_byte_shape_witness :
    (flip_bits (σ := Unit) ⟨fun s => (0, s), fun s => (0, s)⟩ [255, 3] () 0).1 =
      [255, 3] ∧
    (flip_bits (σ := Unit) ⟨fun s => (0, s), fun s => (0, s)⟩ [255, 3] () 0).1.length = 2 := by
  have h := flip_bits_byte_shape (σ := Unit) ⟨fun s => (0, s), fun s => (0, s)⟩
    [255, 3] () 0
  exact ⟨h.2.2.2 (le_refl 0), by rw [h.1]; rfl⟩

theorem nameOf_eq_some {n : PyNode} {id : String} (h : nameOf n = some id) :
    n = .expr (.name id) := by
  cases n with
  | op t => simp [nameOf] at h
  | expr e => cases e <;> simp_all [nameOf]

theorem checkNode_error_of_bad (env : List (String × PyVal)) (n : PyNode)
    (hb : nodeBad env n = true) :
    checkNode env n = .error (nodeErrMsg env n) := by
  unfold checkNode nodeErrMsg nodeBad at *
  by_cases hm : n.tagOf ∈ allowedTags
  · cases hn : nameOf n with
    | none => simp [hm, hn] at hb
    | some id =>
      cases hs : (env.lookup id).isSome with
      | true => simp [hm, hn, hs] at hb
      | false => simp [hm, hn, hs]
  · simp [hm]

theorem checkNode_ok_of_good (env : List (String × PyVal)) (n : PyNode)
    (hb : nodeBad env n = false) : checkNode env n = .ok () := by
  unfold checkNode nodeBad at *
  by_cases hm : n.tagOf ∈ allowedTags
  · cases hn : nameOf n with
    | none => simp [hm, hn]
    | some id =>
      cases hs : (env.lookup id).isSome with
      | true => simp [hm, hn, hs]
      | false => simp [hm, hn, hs] at hb
  · simp [hm] at hb

theorem checkList_first_error (env : List (String × PyVal)) :
    ∀ ns : List PyNode, ns.any (nodeBad env) = true →
      ∃ n ∈ ns, nodeBad env n = true ∧
        checkList env ns = .error (nodeErrMsg env n) := by
  intro ns
  induction ns with
  | nil => simp
  | cons n ns ih =>
    intro h
    by_cases hb : nodeBad env n = true
    · refine ⟨n, List.mem_cons_self n ns, hb, ?_⟩
      simp [checkList, checkNode_error_of_bad env n hb]
    · have hb' : nodeBad env n = false := by simpa using hb
      have h' : ns.any (nodeBad env) = true := by
        simpa [hb'] using h
      obtain ⟨m, hm, hbm, hcl⟩ := ih h'
      refine ⟨m, List.mem_cons_of_mem n hm, hbm, ?_⟩
      simp [checkList, checkNode_ok_of_good env n hb', hcl]

/-- C3: if the parsed expression tree contains any node outside the
`_ALLOWED_NODES` whitelist, or any `Name` not bound in the environment,
then `_safe_eval` fails with the error of the first such node in walk
order — an error naming the offending construct or the unknown variable —
and the failure is already the verdict of the pre-evaluation walk check
(`safe_eval` runs `evalExpr` only when `checkList` returns `ok`, so no
evaluation step happens). -/
theorem safe_eval_rejects_before_eval (e : PyExpr) (env : List (String × PyVal))
    (h : (walkFull e).any (nodeBad env) = true) :
    ∃ n ∈ walkFull e, nodeBad env n = true ∧
      checkList env (walkFull e) = .error (nodeErrMsg env n) ∧
      safe_eval e env = .error (nodeErrMsg env n) ∧
      ((allowedTags.contains n.tagOf = false ∧
          nodeErrMsg env n = "Expression interdite: " ++ n.tagOf) ∨
        (∃ id, n = .expr (.name id) ∧ env.lookup id = Option.none ∧
          nodeErrMsg env n = "Variable inconnue: " ++ id)) := by
  obtain ⟨n, hn, hb, hcl⟩ := checkList_first_error env (walkFull e) h
  refine ⟨n, hn, hb, hcl, ?_, ?_⟩
  · simp [safe_eval, hcl]
  · unfold nodeBad at hb
    by_cases hc : n.tagOf ∈ allowedTags
    · right
      cases hn' : nameOf n with
      | none => simp [hc, hn'] at hb
      | some id =>
        simp only [hn'] at hb
        have hb' : (!(List.lookup id env).isSome) = true := by
          simpa [hc] using hb
        have hs : List.lookup id env = Option.none := by
          cases hlk : List.lookup id env with
          | none => rfl
          | some v => rw [hlk] at hb'; simp at hb'
        refine ⟨id, nameOf_eq_some hn', hs, ?_⟩
        simp [nodeErrMsg, hc, hn', hs]
    · left
      have hc' : allowedTags.contains n.tagOf = false := by simpa using hc
      exact ⟨hc', by simp [nodeErrMsg, hc]⟩

/-- Witness for C3: the expression `f()` (a `Call` of an unknown name) is
rejected by the walk check. -/
theorem safe_eval_rejects_before_eval_witness :
    ∃ n ∈ walkFull (.call (.name ("f")) []), nodeBad [] n = true ∧
      checkList [] (walkFull (.call (.name ("f")) [])) = .error (nodeErrMsg [] n) ∧
      safe_eval (.call (.name ("f")) []) [] = .error (nodeErrMsg [] n) ∧
      ((allowedTags.contains n.tagOf = false ∧
          nodeErrMsg [] n = "Expression interdite: " ++ n.tagOf) ∨
        (∃ id, n = .expr (.name id) ∧
          List.lookup id ([] : List (String × PyVal)) = Option.none ∧
          nodeErrMsg [] n = "Variable inconnue: " ++ id)) :=
  safe_eval_rejects_before_eval (.call (.name ("f")) []) []
    (by simp [walkFull, walkAux, PyNode.children, childrenE, nodeBad,
              PyNode.tagOf, PyExpr.tag, allowedTags])

/-- C9: whenever `fingerprint_csv` succeeds, the reported `missing_rate`
is the missing-cell count divided by (row count × declared header column
count) — the denominator counts every header column, including ones later
dropped as non-numeric — rounded to 12 decimal digits.  (Success forces at
least one column with two parsed values, so `rows × columns ≥ 2` and the
`max(1, ·)` guard in the code is inert.) -/
theorem fingerprint_missing_rate_denominator (header : List String)
    (rows : List (List Cell)) (fp : Fingerprint)
    (h : fingerprint_csv header rows = .ok fp) :
    fp.missing_rate =
      pyRound12 ((fp.missing_cells : ℚ) /
        ((fp.rows : ℚ) * (header.length : ℚ))) := by
  unfold fingerprint_csv at h
  by_cases hh : header = []
  · rw [if_pos hh] at h
    exact absurd h (by simp)
  · rw [if_neg hh] at h
    by_cases hnum :
        (header.enum.map (fun p => (p.2, colValues rows p.1))).filter
          (fun p => 1 < p.2.length) = []
    · rw [if_pos hnum] at h
      exact absurd h (by simp)
    · rw [if_neg hnum] at h
      have hfp := Except.ok.inj h
      subst hfp
      obtain ⟨p, hp⟩ := List.exists_mem_of_ne_nil _ hnum
      have hp' := List.mem_filter.mp hp
      have hplen : 1 < p.2.length := by
        have := hp'.2
        simpa using this
      obtain ⟨q, hq, hpq⟩ := List.mem_map.mp hp'.1
      have hvals : p.2 = colValues rows q.1 := by rw [← hpq]
      have hle : (colValues rows q.1).length ≤ rows.length :=
        List.length_filterMap_le _ _
      have htotal : 2 ≤ rows.length := by
        rw [hvals] at hplen
        omega
      have hhead : 0 < header.length := List.length_pos.mpr hh
      have hmax : max 1 (rows.length * header.length) =
          rows.length * header.length := by
        have : 2 ≤ rows.length * header.length := by
          calc 2 = 2 * 1 := by ring
          _ ≤ rows.length * header.length := Nat.mul_le_mul htotal hhead
        omega
      simp only [hmax]
      push_cast
      rfl

/-- Witness for C9 on a one-column two-row table. -/
theorem fingerprint_missing_rate_denominator_witness :
    ∃ fp : Fingerprint,
      fingerprint_csv ["a"] [[Cell.num 1], [Cell.num 2]] = .ok fp ∧
      fp.missing_rate =
        pyRound12 ((fp.missing_cells : ℚ) /
          ((fp.rows : ℚ) * ((["a"] : List String).length : ℚ))) :=
  ⟨_, rfl, fingerprint_missing_rate_denominator ["a"] [[Cell.num 1], [Cell.num 2]] _ rfl⟩

theorem map_start_map {l : List ℕ} {g : ℕ → WindowSlice}
    (hg : ∀ s, (g s).start = s) : (l.map g).map WindowSlice.start = l := by
  induction l with
  | nil => rfl
  | cons x xs ih => simp [hg, ih]

theorem pyWindowDefault_ge_two {window : ℤ} {L : ℕ} (hL : 2 ≤ L) :
    2 ≤ pyWindowDefault window L := by
  unfold pyWindowDefault
  split
  · omega
  · omega

theorem pyStepDefault_pos {step : ℤ} {W : ℕ} (hW : 0 < W) :
    0 < pyStepDefault step W := by
  unfold pyStepDefault
  split
  · omega
  · omega

/-- C6 counterexample input: on the length-2 single-column table with
`window = 3 > 2` and `step = 1`, the detector still emits one window, with
`start = 0` (the claim asserts no window is emitted when `W > L`). -/
theorem windowed_corr_edges_window_exceeding_length_cex :
    minLen [("a", [(0 : ℚ), 0])] = 2 ∧
    (windowed_corr_edges [("a", [(0 : ℚ), 0])] (1 : ℝ) 3 1).map
        WindowSlice.start = [0] := by
  constructor
  · rfl
  · rfl

/-- C6 (amended): with the defaults applied (`W = min(50, L)` when `W < 2`,
`S = W` when `S < 1`), the emitted window starts are exactly
`range(0, max(1, L − W + 1), S)`, in strictly increasing order: when
`W ≤ L` these are exactly the multiples of `S` that are `≤ L − W`, and
when `W > L` a single window with `start = 0` is emitted (rather than none,
as the unamended claim asserts). -/
theorem windowed_corr_edges_starts (data : List (String × List ℚ))
    (threshold : ℝ) (window step : ℤ) (hL : 2 ≤ minLen data) :
    ((windowed_corr_edges data threshold window step).map WindowSlice.start =
      pyRange (max 1 (minLen data - pyWindowDefault window (minLen data) + 1))
        (pyStepDefault step (pyWindowDefault window (minLen data)))) ∧
    ((windowed_corr_edges data threshold window step).map
        WindowSlice.start).Pairwise (· < ·) ∧
    (pyWindowDefault window (minLen data) ≤ minLen data →
      ∀ s', s' ∈ (windowed_corr_edges data threshold window step).map
          WindowSlice.start ↔
        (∃ k, s' = pyStepDefault step (pyWindowDefault window (minLen data)) * k) ∧
          s' ≤ minLen data - pyWindowDefault window (minLen data)) ∧
    (minLen data < pyWindowDefault window (minLen data) →
      (windowed_corr_edges data threshold window step).map
        WindowSlice.start = [0]) := by
  have hW2 : 2 ≤ pyWindowDefault window (minLen data) := pyWindowDefault_ge_two hL
  have hS : 0 < pyStepDefault step (pyWindowDefault window (minLen data)) :=
    pyStepDefault_pos (by omega)
  have hmap : (windowed_corr_edges data threshold window step).map
      WindowSlice.start =
      pyRange (max 1 (minLen data - pyWindowDefault window (minLen data) + 1))
        (pyStepDefault step (pyWindowDefault window (minLen data))) := by
    unfold windowed_corr_edges
    rw [if_neg (by omega : ¬ minLen data < 2)]
    exact map_start_map (fun s => rfl)
  refine ⟨hmap, ?_, ?_, ?_⟩
  · rw [hmap]
    exact pairwise_lt_pyRange hS
  · intro hWL s'
    rw [hmap, mem_pyRange hS]
    have hmx : max 1 (minLen data - pyWindowDefault window (minLen data) + 1) =
        minLen data - pyWindowDefault window (minLen data) + 1 := by omega
    rw [hmx]
    constructor
    · rintro ⟨k, rfl, hlt⟩
      exact ⟨⟨k, rfl⟩, by omega⟩
    · rintro ⟨⟨k, rfl⟩, hle⟩
      exact ⟨k, rfl, by omega⟩
  · intro hLW
    rw [hmap]
    have hmx : max 1 (minLen data - pyWindowDefault window (minLen data) + 1) = 1 := by
      omega
    rw [hmx]
    exact pyRange_one_of_stop_one hS

/-- Witness for C6 (amended) on a three-row column with `W = 2`, `S = 1`. -/
theorem windowed_corr_edges_starts_witness :
    (windowed_corr_edges [("a", [(0 : ℚ), 0, 0])] (1 : ℝ) 2 1).map
        WindowSlice.start =
      pyRange (max 1 (minLen [("a", [(0 : ℚ), 0, 0])] -
          pyWindowDefault 2 (minLen [("a", [(0 : ℚ), 0, 0])]) + 1))
        (pyStepDefault 1 (pyWindowDefault 2 (minLen [("a", [(0 : ℚ), 0, 0])]))) :=
  (windowed_corr_edges_starts [("a", [(0 : ℚ), 0, 0])] 1 2 1 (by decide)).1

/-! Pair-enumeration and sorted-key lemmas for the coherence graph. -/

theorem mem_pyPairs_fst {α : Type} {a b : α} :
    ∀ {l : List α}, (a, b) ∈ pyPairs l → a ∈ l ∧ b ∈ l := by
  intro l
  induction l with
  | nil => intro h; simp [pyPairs] at h
  | cons x xs ih =>
    intro h
    simp only [pyPairs, List.mem_append, List.mem_map] at h
    rcases h with ⟨y, hy, hxy⟩ | h
    · obtain ⟨rfl, rfl⟩ := Prod.mk.injEq .. ▸ hxy
      exact ⟨List.mem_cons_self _ _, List.mem_cons_of_mem _ hy⟩
    · obtain ⟨ha, hb⟩ := ih h
      exact ⟨List.mem_cons_of_mem _ ha, List.mem_cons_of_mem _ hb⟩

theorem mem_pyPairs {α : Type} [LinearOrder α] {a b : α} :
    ∀ {l : List α}, l.Pairwise (· < ·) →
      ((a, b) ∈ pyPairs l ↔ a ∈ l ∧ b ∈ l ∧ a < b) := by
  intro l
  induction l with
  | nil => intro _; simp [pyPairs]
  | cons x xs ih =>
    intro hpw
    have hx : ∀ y ∈ xs, x < y := (List.pairwise_cons.mp hpw).1
    have hxs : xs.Pairwise (· < ·) := (List.pairwise_cons.mp hpw).2
    simp only [pyPairs, List.mem_append, List.mem_map]
    constructor
    · rintro (⟨y, hy, hxy⟩ | h)
      · obtain ⟨rfl, rfl⟩ := Prod.mk.injEq .. ▸ hxy
        exact ⟨List.mem_cons_self _ _, List.mem_cons_of_mem _ hy, hx _ hy⟩
      · obtain ⟨ha, hb, hab⟩ := (ih hxs).mp h
        exact ⟨List.mem_cons_of_mem _ ha, List.mem_cons_of_mem _ hb, hab⟩
    · rintro ⟨ha, hb, hab⟩
      rcases List.mem_cons.mp ha with rfl | ha'
      · rcases List.mem_cons.mp hb with rfl | hb'
        · exact absurd hab (lt_irrefl _)
        · exact Or.inl ⟨b, hb', rfl⟩
      · rcases List.mem_cons.mp hb with rfl | hb'
        · exact absurd (lt_trans (hx _ ha') hab) (lt_irrefl _)
        · exact Or.inr ((ih hxs).mpr ⟨ha', hb', hab⟩)

theorem pyPairs_nodup {α : Type} [LinearOrder α] :
    ∀ {l : List α}, l.Pairwise (· < ·) → (pyPairs l).Nodup := by
  intro l
  induction l with
  | nil => intro _; simp [pyPairs]
  | cons x xs ih =>
    intro hpw
    have hx : ∀ y ∈ xs, x < y := (List.pairwise_cons.mp hpw).1
    have hxs : xs.Pairwise (· < ·) := (List.pairwise_cons.mp hpw).2
    have hnd : xs.Nodup := hxs.imp (fun h => ne_of_lt h)
    simp only [pyPairs]
    refine List.Nodup.append ?_ (ih hxs) ?_
    · exact hnd.map (fun u v huv => (Prod.mk.injEq .. ▸ huv).2)
    · intro p hp hp'
      obtain ⟨y, _, hxy⟩ := List.mem_map.mp hp
      have hfst : p.1 = x := by rw [← hxy]
      have hfst' : p.1 ∈ xs := by
        obtain ⟨a, b⟩ := p
        exact (mem_pyPairs_fst hp').1
      exact absurd hfst (ne_of_gt (hx _ hfst'))

theorem sortStrings_perm (l : List String) : List.Perm (sortStrings l) l :=
  List.perm_insertionSort _ l

theorem mem_sortStrings {l : List String} {a : String} :
    a ∈ sortStrings l ↔ a ∈ l :=
  (sortStrings_perm l).mem_iff

theorem sortStrings_pairwise_lt {l : List String} (h : l.Nodup) :
    (sortStrings l).Pairwise (· < ·) := by
  have hs : (sortStrings l).Sorted (· ≤ ·) :=
    List.sorted_insertionSort (· ≤ ·) l
  have hn : (sortStrings l).Nodup := ((sortStrings_perm l).nodup_iff).mpr h
  exact hs.lt_of_le hn

theorem lookup_eq_some_of_nodup :
    ∀ {data : List (String × List ℚ)} {k : String} {v : List ℚ},
      (data.map Prod.fst).Nodup → (k, v) ∈ data → data.lookup k = some v := by
  intro data
  induction data with
  | nil => intro k v _ h; simp at h
  | cons p rest ih =>
    intro k v hnd hmem
    obtain ⟨k', v'⟩ := p
    have hnd2 : (k' :: rest.map Prod.fst).Nodup := by simpa using hnd
    have hhd : k' ∉ rest.map Prod.fst := (List.nodup_cons.mp hnd2).1
    have htl : (rest.map Prod.fst).Nodup := (List.nodup_cons.mp hnd2).2
    rcases List.mem_cons.mp hmem with heq | hmem'
    · obtain ⟨rfl, rfl⟩ := Prod.mk.injEq .. ▸ heq
      simp [List.lookup]
    · have hne : k ≠ k' := by
        intro h
        subst h
        exact hhd (List.mem_map.mpr ⟨(k, v), hmem', rfl⟩)
      have hbeq : (k == k') = false := beq_eq_false_iff_ne.mpr hne
      simp only [List.lookup, hbeq]
      exact ih htl hmem'

theorem getCol_eq_of_mem {data : List (String × List ℚ)} {k : String}
    {v : List ℚ} (hnd : (data.map Prod.fst).Nodup) (hmem : (k, v) ∈ data) :
    getCol data k = v := by
  unfold getCol
  rw [lookup_eq_some_of_nodup hnd hmem]
  rfl

/-- The first column's variance term of `pearson_corr` vanishes when the
column is constant over the common prefix. -/
theorem pearson_corr_const_left {x y : List ℚ} {c : ℚ}
    (hc : ∀ v ∈ x.take (min x.length y.length), v = c) :
    pearson_corr x y = 0 := by
  unfold pearson_corr
  by_cases hn : min x.length y.length < 2
  · rw [if_pos hn]
  · rw [if_neg hn]
    have hnz : ((min x.length y.length : ℕ) : ℚ) ≠ 0 :=
      Nat.cast_ne_zero.mpr (by omega)
    have hlen : (x.take (min x.length y.length)).length =
        min x.length y.length := by
      rw [List.length_take]
      omega
    have hsum : (x.take (min x.length y.length)).sum =
        ((min x.length y.length : ℕ) : ℚ) * c := by
      rw [List.sum_eq_card_nsmul _ c hc, hlen, nsmul_eq_mul]
    have hmx : (x.take (min x.length y.length)).sum /
        ((min x.length y.length : ℕ) : ℚ) = c := by
      rw [hsum, mul_comm, mul_div_assoc, div_self hnz, mul_one]
    have hvx : ((x.take (min x.length y.length)).map
        (fun a => (a - (x.take (min x.length y.length)).sum /
          ((min x.length y.length : ℕ) : ℚ)) ^ 2)).sum = 0 := by
      apply List.sum_eq_zero
      intro q hq
      obtain ⟨a, ha, rfl⟩ := List.mem_map.mp hq
      rw [hmx, hc a ha]
      ring
    rw [if_pos (Or.inl (le_of_eq hvx))]

/-- The second column's variance term of `pearson_corr` vanishes when that
column is constant over the common prefix. -/
theorem pearson_corr_const_right {x y : List ℚ} {c : ℚ}
    (hc : ∀ v ∈ y.take (min x.length y.length), v = c) :
    pearson_corr x y = 0 := by
  unfold pearson_corr
  by_cases hn : min x.length y.length < 2
  · rw [if_pos hn]
  · rw [if_neg hn]
    have hnz : ((min x.length y.length : ℕ) : ℚ) ≠ 0 :=
      Nat.cast_ne_zero.mpr (by omega)
    have hlen : (y.take (min x.length y.length)).length =
        min x.length y.length := by
      rw [List.length_take]
      omega
    have hsum : (y.take (min x.length y.length)).sum =
        ((min x.length y.length : ℕ) : ℚ) * c := by
      rw [List.sum_eq_card_nsmul _ c hc, hlen, nsmul_eq_mul]
    have hmy : (y.take (min x.length y.length)).sum /
        ((min x.length y.length : ℕ) : ℚ) = c := by
      rw [hsum, mul_comm, mul_div_assoc, div_self hnz, mul_one]
    have hvy : ((y.take (min x.length y.length)).map
        (fun b => (b - (y.take (min x.length y.length)).sum /
          ((min x.length y.length : ℕ) : ℚ)) ^ 2)).sum = 0 := by
      apply List.sum_eq_zero
      intro q hq
      obtain ⟨b, hb, rfl⟩ := List.mem_map.mp hq
      rw [hmy, hc b hb]
      ring
    rw [if_pos (Or.inr (le_of_eq hvy))]

/-- C7: a column that is constant over the common prefix with another
column has Pearson correlation exactly `0` with it (in either argument
position, with no division occurring), and a fully constant column of the
table never contributes an edge to the coherence graph for any positive
threshold. -/
theorem zero_variance_column_no_edge (data : List (String × List ℚ))
    (cname : String) (vals : List ℚ) (c : ℚ) (t : ℝ)
    (hmem : (cname, vals) ∈ data) (hnd : (data.map Prod.fst).Nodup)
    (hc : ∀ v ∈ vals, v = c) (ht : 0 < t) :
    (∀ (x y : List ℚ) (c' : ℚ),
      (∀ v ∈ x.take (min x.length y.length), v = c') →
        pearson_corr x y = 0 ∧ pearson_corr y x = 0) ∧
    (∀ y : List ℚ, pearson_corr vals y = 0 ∧ pearson_corr y vals = 0) ∧
    (∀ e ∈ (build_coherence_graph data t).edges, e.a ≠ cname ∧ e.b ≠ cname) := by
  have hgen : ∀ (x y : List ℚ) (c' : ℚ),
      (∀ v ∈ x.take (min x.length y.length), v = c') →
        pearson_corr x y = 0 ∧ pearson_corr y x = 0 := by
    intro x y c' hc'
    refine ⟨pearson_corr_const_left hc',
      pearson_corr_const_right (c := c') ?_⟩
    intro v hv
    exact hc' v (by rwa [min_comm] at hv)
  have hvals : ∀ y : List ℚ, pearson_corr vals y = 0 ∧ pearson_corr y vals = 0 := by
    intro y
    exact hgen vals y c (fun v hv => hc v (List.take_subset _ _ hv))
  refine ⟨hgen, hvals, ?_⟩
  intro e he
  have hcol : getCol data cname = vals := getCol_eq_of_mem hnd hmem
  simp only [build_coherence_graph] at he
  obtain ⟨ab, _, hf⟩ := List.mem_filterMap.mp he
  by_cases hcond :
      t ≤ |pearson_corr (getCol data ab.1) (getCol data ab.2)|
  · rw [if_pos hcond] at hf
    obtain rfl := Option.some.inj hf
    constructor
    · intro ha
      have ha' : ab.1 = cname := ha
      rw [ha', hcol, (hvals _).1] at hcond
      simp at hcond
      exact absurd hcond (not_le.mpr ht)
    · intro hb
      have hb' : ab.2 = cname := hb
      rw [hb', hcol, (hvals _).2] at hcond
      simp at hcond
      exact absurd hcond (not_le.mpr ht)
  · rw [if_neg hcond] at hf
    exact absurd hf (by simp)

/-- Witness for C7: the constant column `[1, 1]` has zero correlation with
`[5, 6]` in either position. -/
theorem zero_variance_column_no_edge_witness :
    pearson_corr [(1 : ℚ), 1] [(5 : ℚ), 6] = 0 ∧
    pearson_corr [(5 : ℚ), 6] [(1 : ℚ), 1] = 0 :=
  (zero_variance_column_no_edge [("a", [(1 : ℚ), 1]), ("b", [(5 : ℚ), 6])]
    "a" [(1 : ℚ), 1] 1 (1/2) (List.mem_cons_self _ _) (by simp)
    (by intro v hv; simp at hv; exact hv) (by norm_num)).2.1 [(5 : ℚ), 6]

theorem map_filterMap_sublist {α β : Type} (f : α → Option β) (g : β → α)
    (hfg : ∀ a b, f a = some b → g b = a) :
    ∀ l : List α, List.Sublist ((l.filterMap f).map g) l := by
  intro l
  induction l with
  | nil => simp
  | cons x xs ih =>
    cases hfx : f x with
    | none =>
      rw [List.filterMap_cons_none hfx]
      exact ih.cons x
    | some b =>
      rw [List.filterMap_cons_some hfx]
      rw [List.map_cons, hfg x b hfx]
      exact ih.cons₂ x

/-- C8: in every coherence graph built over a table with distinct column
names, each edge has `a < b` lexicographically (hence no self-edge), the
unordered pairs of edge endpoints are pairwise distinct (at most one edge
per pair), each stored correlation is the raw Pearson correlation rounded
to 12 decimal digits, and a pair `(a, b)` of columns with `a < b` carries
an edge iff the absolute raw Pearson correlation reaches the threshold. -/
theorem coherence_graph_edge_invariants (data : List (String × List ℚ))
    (t : ℝ) (hnd : (data.map Prod.fst).Nodup) :
    (∀ e ∈ (build_coherence_graph data t).edges, e.a < e.b ∧ e.a ≠ e.b) ∧
    ((build_coherence_graph data t).edges.map (fun e => (e.a, e.b))).Nodup ∧
    (∀ e ∈ (build_coherence_graph data t).edges,
      e.corr = pyRound12R (pearson_corr (getCol data e.a) (getCol data e.b))) ∧
    (∀ a b : String, a ∈ data.map Prod.fst → b ∈ data.map Prod.fst → a < b →
      ((∃ e ∈ (build_coherence_graph data t).edges, e.a = a ∧ e.b = b) ↔
        t ≤ |pearson_corr (getCol data a) (getCol data b)|)) := by
  have hkeys : (sortStrings (data.map Prod.fst)).Pairwise (· < ·) :=
    sortStrings_pairwise_lt hnd
  have hext : ∀ e ∈ (build_coherence_graph data t).edges,
      ∃ a b : String, (a, b) ∈ pyPairs (sortStrings (data.map Prod.fst)) ∧
        e = ⟨a, b, pyRound12R (pearson_corr (getCol data a) (getCol data b))⟩ ∧
        t ≤ |pearson_corr (getCol data a) (getCol data b)| := by
    intro e he
    simp only [build_coherence_graph] at he
    obtain ⟨ab, hab, hf⟩ := List.mem_filterMap.mp he
    by_cases hcond : t ≤ |pearson_corr (getCol data ab.1) (getCol data ab.2)|
    · rw [if_pos hcond] at hf
      obtain rfl := Option.some.inj hf
      exact ⟨ab.1, ab.2, by rwa [Prod.mk.eta], rfl, hcond⟩
    · rw [if_neg hcond] at hf
      exact absurd hf (by simp)
  refine ⟨?_, ?_, ?_, ?_⟩
  · intro e he
    obtain ⟨a, b, hab, rfl, _⟩ := hext e he
    have hlt : a < b := ((mem_pyPairs hkeys).mp hab).2.2
    exact ⟨hlt, ne_of_lt hlt⟩
  · have hsub : List.Sublist
        (((build_coherence_graph data t).edges.map (fun e => (e.a, e.b))))
        (pyPairs (sortStrings (data.map Prod.fst))) := by
      apply map_filterMap_sublist
      intro ab e hf
      by_cases hcond : t ≤ |pearson_corr (getCol data ab.1) (getCol data ab.2)|
      · rw [if_pos hcond] at hf
        obtain rfl := Option.some.inj hf
        exact Prod.mk.eta
      · rw [if_neg hcond] at hf
        exact absurd hf (by simp)
    exact (pyPairs_nodup hkeys).sublist hsub
  · intro e he
    obtain ⟨a, b, _, rfl, _⟩ := hext e he
    rfl
  · intro a b ha hb hab
    constructor
    · rintro ⟨e, he, hea, heb⟩
      obtain ⟨a', b', _, rfl, hcond⟩ := hext e he
      have ha' : a' = a := hea
      have hb' : b' = b := heb
      rwa [ha', hb'] at hcond
    · intro hcond
      have hab' : (a, b) ∈ pyPairs (sortStrings (data.map Prod.fst)) :=
        (mem_pyPairs hkeys).mpr
          ⟨mem_sortStrings.mpr ha, mem_sortStrings.mpr hb, hab⟩
      refine ⟨⟨a, b, pyRound12R (pearson_corr (getCol data a) (getCol data b))⟩,
        ?_, rfl, rfl⟩
      simp only [build_coherence_graph]
      exact List.mem_filterMap.mpr ⟨(a, b), hab', by rw [if_pos hcond]⟩

/-- Witness for C8 on a two-column table, instantiating the edge-presence
equivalence at the pair `("a", "b")`. -/
theorem coherence_graph_edge_invariants_witness :
    (∃ e ∈ (build_coherence_graph [("a", [(1 : ℚ), 2]), ("b", [(2 : ℚ), 4])]
        (1/2)).edges, e.a = "a" ∧ e.b = "b") ↔
      (1/2 : ℝ) ≤ |pearson_corr
        (getCol [("a", [(1 : ℚ), 2]), ("b", [(2 : ℚ), 4])] "a")
        (getCol [("a", [(1 : ℚ), 2]), ("b", [(2 : ℚ), 4])] "b")| :=
  (coherence_graph_edge_invariants [("a", [(1 : ℚ), 2]), ("b", [(2 : ℚ), 4])]
    (1/2) (by simp)).2.2.2 "a" "b" (by simp) (by simp)
    (String.lt_iff_toList_lt.mpr (by decide))

/-! Key-prefix facts for the `delta_mean_` scan of the drift composer. -/

theorem prefix_kDeltaMean (col : String) :
    ("delta_mean_".data.isPrefixOf (kDeltaMean col)) = true := by
  rw [List.isPrefixOf_iff_prefix]
  exact List.prefix_append _ _

theorem not_prefix_kDeltaMedian (col : String) :
    ("delta_mean_".data.isPrefixOf (kDeltaMedian col)) = false := rfl

theorem not_prefix_kDeltaMad (col : String) :
    ("delta_mean_".data.isPrefixOf (kDeltaMad col)) = false := rfl

theorem not_prefix_kKsP (col : String) :
    ("delta_mean_".data.isPrefixOf (kKsP col)) = false := rfl

theorem not_prefix_kKsD (col : String) :
    ("delta_mean_".data.isPrefixOf (kKsD col)) = false := rfl

theorem foldl_append_flatMap {α β : Type} (g : α → List β) :
    ∀ (l : List α) (acc : List β),
      l.foldl (fun acc x => acc ++ g x) acc = acc ++ l.flatMap g := by
  intro l
  induction l with
  | nil => intro acc; simp
  | cons x xs ih =>
    intro acc
    rw [List.foldl_cons, ih, List.flatMap_cons, List.append_assoc]

theorem foldl_or_any {α : Type} (p : α → Bool) :
    ∀ (l : List α) (b : Bool),
      l.foldl (fun fl x => fl || p x) b = (b || l.any p) := by
  intro l
  induction l with
  | nil => intro b; simp
  | cons x xs ih =>
    intro b
    rw [List.foldl_cons, ih, List.any_cons, Bool.or_assoc]

theorem foldl_pair_flatMap_any {α β : Type} (g : α → List β) (p : α → Bool) :
    ∀ (l : List α) (acc : List β × Bool),
      l.foldl (fun acc x => (acc.1 ++ g x, acc.2 || p x)) acc =
        (acc.1 ++ l.flatMap g, acc.2 || l.any p) := by
  intro l
  induction l with
  | nil => intro acc; simp
  | cons x xs ih =>
    intro acc
    rw [List.foldl_cons, ih, List.flatMap_cons, List.any_cons]
    simp [List.append_assoc, Bool.or_assoc]

theorem ratCastAbsLt (q : ℚ) :
    ((0.05 : ℝ) < |((q : ℚ) : ℝ)|) ↔ (1/20 : ℚ) < |q| := by
  rw [← Rat.cast_abs]
  rw [show ((0.05 : ℝ)) = (((1/20 : ℚ) : ℝ)) from by norm_num]
  exact Rat.cast_lt

theorem deltaEntries_any_iff (baseCols : List (String × FpCol))
    (q : String × FpCol) :
    (deltaEntries baseCols q).any dmScan = true ↔
      ∃ sb, baseCols.lookup q.1 = some sb ∧
        (1/20 : ℚ) < |pyRound12 (q.2.mean - sb.mean)| := by
  unfold deltaEntries
  cases hlk : baseCols.lookup q.1 with
  | none => simp
  | some sb =>
    have h1 : dmScan (kDeltaMean q.1,
        ((pyRound12 (q.2.mean - sb.mean) : ℚ) : ℝ)) =
        decide ((0.05 : ℝ) < |((pyRound12 (q.2.mean - sb.mean) : ℚ) : ℝ)|) := by
      unfold dmScan
      rw [prefix_kDeltaMean]
      simp
    have h2 : dmScan (kDeltaMedian q.1,
        ((pyRound12 (q.2.median - sb.median) : ℚ) : ℝ)) = false := by
      unfold dmScan
      rw [not_prefix_kDeltaMedian]
      simp
    have h3 : dmScan (kDeltaMad q.1,
        ((pyRound12 (q.2.mad - sb.mad) : ℚ) : ℝ)) = false := by
      unfold dmScan
      rw [not_prefix_kDeltaMad]
      simp
    simp only [List.any_cons, List.any_nil, h1, h2, h3, Bool.or_false,
      Bool.false_or]
    rw [decide_eq_true_eq, ratCastAbsLt]
    simp

theorem ksEntries_all_scan_false (colsBase colsCur : List (String × List ℚ))
    (col : String) :
    ∀ kv ∈ ksEntries colsBase colsCur col, dmScan kv = false := by
  intro kv hkv
  unfold ksEntries at hkv
  rcases List.mem_cons.mp hkv with rfl | hkv'
  · unfold dmScan
    rw [not_prefix_kKsP]
    simp
  · rcases List.mem_cons.mp hkv' with rfl | hkv''
    · unfold dmScan
      rw [not_prefix_kKsD]
      simp
    · simp at hkv''

/-- C4: the drift flag is raised iff some KS p-value of a shared raw
column is below `alpha`, or some column shared by both fingerprints has a
recorded `|delta_mean|` above `0.05`; it stays `false` when neither
condition holds. -/
theorem drift_flag_iff (curCols baseCols : List (String × FpCol))
    (rawPair : Option (List (String × List ℚ) × List (String × List ℚ)))
    (alpha : ℝ)
    (hndCur : (curCols.map Prod.fst).Nodup)
    (hndBase : (baseCols.map Prod.fst).Nodup) :
    (compare_fingerprints_core curCols baseCols rawPair alpha).flag_drift = true ↔
      ((∃ rb rc, rawPair = some (rb, rc) ∧
          ∃ col ∈ sharedCols (keepCols rb) (keepCols rc),
            (ks_2samp_lite (getCol (keepCols rb) col)
              (getCol (keepCols rc) col)).p_value < alpha) ∨
        (∃ q ∈ curCols, ∃ sb, baseCols.lookup q.1 = some sb ∧
          (1/20 : ℚ) < |pyRound12 (q.2.mean - sb.mean)|)) := by
  unfold compare_fingerprints_core
  have hchecks1 : curCols.foldl (fun acc q => acc ++ deltaEntries baseCols q) [] =
      curCols.flatMap (deltaEntries baseCols) := by
    rw [foldl_append_flatMap]
    rfl
  have hdelta : (curCols.flatMap (deltaEntries baseCols)).any dmScan = true ↔
      ∃ q ∈ curCols, ∃ sb, baseCols.lookup q.1 = some sb ∧
        (1/20 : ℚ) < |pyRound12 (q.2.mean - sb.mean)| := by
    rw [List.any_eq_true]
    constructor
    · rintro ⟨kv, hkv, hscan⟩
      obtain ⟨q, hq, hkvq⟩ := List.mem_flatMap.mp hkv
      obtain ⟨sb, hsb, hgt⟩ := (deltaEntries_any_iff baseCols q).mp
        (List.any_eq_true.mpr ⟨kv, hkvq, hscan⟩)
      exact ⟨q, hq, sb, hsb, hgt⟩
    · rintro ⟨q, hq, sb, hsb, hgt⟩
      obtain ⟨kv, hkv, hscan⟩ := List.any_eq_true.mp
        ((deltaEntries_any_iff baseCols q).mpr ⟨sb, hsb, hgt⟩)
      exact ⟨kv, List.mem_flatMap.mpr ⟨q, hq, hkv⟩, hscan⟩
  cases rawPair with
  | none =>
    simp only [hchecks1]
    rw [foldl_or_any]
    simp only [Bool.false_or]
    rw [hdelta]
    constructor
    · intro h
      exact Or.inr h
    · rintro (⟨rb, rc, h, _⟩ | h)
      · exact absurd h (by simp)
      · exact h
  | some pair =>
    obtain ⟨rb, rc⟩ := pair
    simp only [hchecks1]
    rw [foldl_pair_flatMap_any, foldl_or_any]
    simp only [List.any_append, Bool.false_or]
    have hks0 : ((sharedCols (keepCols rb) (keepCols rc)).flatMap
        (ksEntries (keepCols rb) (keepCols rc))).any dmScan = false := by
      rw [List.any_eq_false]
      intro kv hkv
      obtain ⟨col, _, hkvcol⟩ := List.mem_flatMap.mp hkv
      rw [ksEntries_all_scan_false _ _ _ kv hkvcol]
      simp
    rw [hks0, Bool.or_false, Bool.or_eq_true, hdelta]
    have hksiff : (sharedCols (keepCols rb) (keepCols rc)).any
        (ksBelowAlpha (keepCols rb) (keepCols rc) alpha) = true ↔
        ∃ col ∈ sharedCols (keepCols rb) (keepCols rc),
          (ks_2samp_lite (getCol (keepCols rb) col)
            (getCol (keepCols rc) col)).p_value < alpha := by
      rw [List.any_eq_true]
      unfold ksBelowAlpha
      simp only [decide_eq_true_eq]
    rw [hksiff]
    constructor
    · rintro (h | h)
      · exact Or.inl ⟨rb, rc, rfl, h⟩
      · exact Or.inr h
    · rintro (⟨rb', rc', heq, h⟩ | h)
      · obtain ⟨h1, h2⟩ := Prod.mk.injEq .. ▸ Option.some.inj heq
        subst h1
        subst h2
        exact Or.inl h
      · exact Or.inr h

/-- Witness for C4 (Scenario C of the spec): baseline mean `10.0`, current
mean `10.06`, no KS data — the recorded `delta_mean` is `0.06 > 0.05`, so
the drift flag is raised. -/
theorem drift_flag_iff_witness :
    (compare_fingerprints_core [("m", ⟨(10.06 : ℚ), 0, 0⟩)]
      [("m", ⟨(10 : ℚ), 0, 0⟩)] Option.none (0.05 : ℝ)).flag_drift = true := by
  rw [drift_flag_iff _ _ _ _ (by simp) (by simp)]
  right
  refine ⟨("m", ⟨(10.06 : ℚ), 0, 0⟩), List.mem_cons_self _ _,
    ⟨(10 : ℚ), 0, 0⟩, by simp [List.lookup], ?_⟩
  have h1 : ((10.06 : ℚ) - 10) = ((60000000000 : ℤ) : ℚ) / 10 ^ 12 := by
    norm_num
  rw [h1, pyRound12_int_mul]
  rw [show |((60000000000 : ℤ) : ℚ) / 10 ^ 12| =
    ((60000000000 : ℤ) : ℚ) / 10 ^ 12 from abs_of_pos (by norm_num)]
  norm_num

end IncoGuard
